import Mathlib

/-!
Verification of the anytalk session engine (fcitx5-anytalk repository).

This file gives a shallow embedding, in Lean, of the parts of the
anytalk-lib Zig sources that the specification's claims talk about:

* `anytalk-lib/src/protocol.zig` — the vendor wire-protocol codec
  (`buildFullClientRequest`, `buildAudioOnlyRequest`, `parseServerMessage`);
* `anytalk-lib/src/json.zig` — the response interpreter
  (`parseAsrResponse` with its utterances path and text-fallback path);
* `anytalk-lib/src/asr.zig` — the `AudioRing` SPSC ring buffer and the
  per-session worker loop (`Session.sessionLoop` / `Session.runSession`);
* `anytalk-lib/src/context.zig` — `AnytalkContext.startSession`, and
  `src/api.zig`'s `anytalk_start` wrapper.

Bytes are modelled as `Nat` (values < 256 in every frame the code builds),
byte strings as `List Nat`, and text as `List Char`.  Machine integers use
`Nat`/`Int` with explicit `% 256` / `% 16` where the Zig code masks or
truncates.  External effects (socket reads, the PulseAudio device, the
std.json parser, thread scheduling) enter as explicit parameters: a session
run is a function of the sequence of per-iteration observations.
-/

/-! ## Wire protocol codec (protocol.zig) -/

def PROTO_VERSION : Nat := 1
def HEADER_SIZE_4B : Nat := 1
def MSG_FULL_CLIENT_REQUEST : Nat := 1
def MSG_AUDIO_ONLY_REQUEST : Nat := 2
def MSG_FULL_SERVER_RESPONSE : Nat := 9
def MSG_ERROR_RESPONSE : Nat := 15
def FLAG_NO_SEQUENCE : Nat := 0
def FLAG_LAST_NO_SEQUENCE : Nat := 2
def SERIALIZATION_JSON : Nat := 1
def SERIALIZATION_NONE : Nat := 0
def COMPRESSION_NONE : Nat := 0

/-- Header build of protocol.zig `buildHeader`: four bytes, each packing two
4-bit nibbles (`(x & 0xF) << 4 | (y & 0xF)`). -/
def buildHeader (message_type flags serialization compression : Nat) : List Nat :=
  [ (PROTO_VERSION % 16) * 16 + HEADER_SIZE_4B % 16,
    (message_type % 16) * 16 + flags % 16,
    (serialization % 16) * 16 + compression % 16,
    0 ]

/-- Big-endian 4-byte encoding of a `u32` (protocol.zig `u32be`; the Zig code
`@intCast`s a `usize` to `u32`, which requires the value to fit in 32 bits). -/
def u32be (n : Nat) : List Nat :=
  [ n / 16777216 % 256, n / 65536 % 256, n / 256 % 256, n % 256 ]

/-- protocol.zig `buildFullClientRequest`: header (JSON serialization, no
compression) ∥ u32 payload length ∥ JSON payload bytes. -/
def buildFullClientRequest (payload_json : List Nat) : List Nat :=
  buildHeader MSG_FULL_CLIENT_REQUEST FLAG_NO_SEQUENCE SERIALIZATION_JSON COMPRESSION_NONE
    ++ u32be payload_json.length ++ payload_json

/-- protocol.zig `buildAudioOnlyRequest`: header (flags = last-no-sequence when
`last`, else no-sequence; no serialization) ∥ u32 payload length ∥ PCM bytes. -/
def buildAudioOnlyRequest (pcm_bytes : List Nat) (last : Bool) : List Nat :=
  buildHeader MSG_AUDIO_ONLY_REQUEST (if last then FLAG_LAST_NO_SEQUENCE else FLAG_NO_SEQUENCE)
      SERIALIZATION_NONE COMPRESSION_NONE
    ++ u32be pcm_bytes.length ++ pcm_bytes

inductive MsgKind where
  | response
  | error
  | unknown
deriving DecidableEq, Repr

/-- protocol.zig `ParsedServerMessage` (field defaults as in the Zig struct). -/
structure ParsedServerMessage where
  kind : MsgKind := .unknown
  flags : Nat := 0
  json_text : Option (List Nat) := none
  error_code : Option Nat := none
  error_msg : Option (List Nat) := none
deriving DecidableEq, Repr

/-- Big-endian u32 read at offset `off` (`std.mem.readInt(u32, …, .big)`);
the source only reads at offsets it has bounds-checked, so the out-of-range
default 0 is never consulted on the guarded paths. -/
def readU32be (data : List Nat) (off : Nat) : Nat :=
  data.getD off 0 * 16777216 + data.getD (off + 1) 0 * 65536
    + data.getD (off + 2) 0 * 256 + data.getD (off + 3) 0

/-- protocol.zig `parseServerMessage`, line for line: header sanity checks,
then decoding of full-server-response and error frames; anything else is
reported with `kind = unknown`. -/
def parseServerMessage (data : List Nat) : ParsedServerMessage :=
  if data.length < 4 then {} else
  if ¬ (data.getD 0 0 / 16 % 16 = PROTO_VERSION ∧ data.getD 0 0 % 16 = HEADER_SIZE_4B) then {} else
  if data.length < 12 then { flags := data.getD 1 0 % 16 } else
  if data.getD 1 0 / 16 % 16 = MSG_FULL_SERVER_RESPONSE then
    if data.length < 12 + readU32be data 8 then { flags := data.getD 1 0 % 16 }
    else { kind := .response, flags := data.getD 1 0 % 16,
           json_text := some ((data.drop 12).take (readU32be data 8)) }
  else if data.getD 1 0 / 16 % 16 = MSG_ERROR_RESPONSE then
    if data.length < 12 + readU32be data 8 then { flags := data.getD 1 0 % 16 }
    else { kind := .error, flags := data.getD 1 0 % 16,
           error_code := some (readU32be data 4),
           error_msg := some ((data.drop 12).take (readU32be data 8)) }
  else { flags := data.getD 1 0 % 16 }

/-- A frame whose message-type nibble is neither full-server-response nor
error is never decoded as `response`/`error`. -/
lemma parse_kind_unknown_of_type (data : List Nat)
    (h9 : data.getD 1 0 / 16 % 16 ≠ MSG_FULL_SERVER_RESPONSE)
    (h15 : data.getD 1 0 / 16 % 16 ≠ MSG_ERROR_RESPONSE) :
    (parseServerMessage data).kind = MsgKind.unknown := by
  unfold parseServerMessage
  split_ifs <;> rfl

/-- Decoding the 4-byte big-endian encoding recovers any value below `2^32`. -/
lemma u32be_roundtrip (n : Nat) (h : n < 4294967296) :
    (n / 16777216 % 256) * 16777216 + (n / 65536 % 256) * 65536
      + (n / 256 % 256) * 256 + n % 256 = n := by
  omega

/-- **C1, counterexample.** `parseServerMessage` only decodes the *server*
message types (`1001` full-server-response, `1111` error), while the two
builders emit the *client* types (`0001`, `0010`).  On payload `[97]` the
decoder returns `kind = unknown` with no payload at all, so
decode(encode(x)) does not preserve the payload. -/
theorem C1_decode_encode_counterexample :
    (parseServerMessage (buildFullClientRequest [97])).kind = MsgKind.unknown
      ∧ (parseServerMessage (buildFullClientRequest [97])).json_text ≠ some [97]
      ∧ (parseServerMessage (buildAudioOnlyRequest [97] true)).kind = MsgKind.unknown
      ∧ (parseServerMessage (buildAudioOnlyRequest [97] false)).json_text ≠ some [97] := by
  decide

/-- **C1, amended.** Both encoders preserve the payload in the frame itself:
the encoded frame is exactly 8 bytes of header ∥ big-endian length ∥ payload,
so reading the u32 length field at offset 4 and that many bytes from offset 8
recovers the payload's length and bytes, for full-client-request frames and
for audio-only frames with either value of the last flag.  `parseServerMessage`
itself, however, reports both client-side frames as `kind = unknown`, because
it only decodes the inbound server message types. -/
theorem C1_encode_preserves_payload (p : List Nat) (last : Bool)
    (hp : p.length < 4294967296) :
    (buildFullClientRequest p).length = 8 + p.length
      ∧ (buildFullClientRequest p).drop 8 = p
      ∧ readU32be (buildFullClientRequest p) 4 = p.length
      ∧ (buildAudioOnlyRequest p last).length = 8 + p.length
      ∧ (buildAudioOnlyRequest p last).drop 8 = p
      ∧ readU32be (buildAudioOnlyRequest p last) 4 = p.length
      ∧ (parseServerMessage (buildFullClientRequest p)).kind = MsgKind.unknown
      ∧ (parseServerMessage (buildAudioOnlyRequest p last)).kind = MsgKind.unknown := by
  have hf : readU32be (buildFullClientRequest p) 4
      = (p.length / 16777216 % 256) * 16777216 + (p.length / 65536 % 256) * 65536
        + (p.length / 256 % 256) * 256 + p.length % 256 := rfl
  have hfa : ∀ l : Bool, readU32be (buildAudioOnlyRequest p l) 4
      = (p.length / 16777216 % 256) * 16777216 + (p.length / 65536 % 256) * 65536
        + (p.length / 256 % 256) * 256 + p.length % 256 := by
    intro l; cases l <;> rfl
  refine ⟨?_, rfl, ?_, ?_, ?_, ?_, ?_, ?_⟩
  · simp [buildFullClientRequest, buildHeader, u32be]; omega
  · rw [hf]; exact u32be_roundtrip p.length hp
  · cases last <;> (simp [buildAudioOnlyRequest, buildHeader, u32be]; omega)
  · cases last <;> rfl
  · rw [hfa last]; exact u32be_roundtrip p.length hp
  · exact parse_kind_unknown_of_type _ (by decide : (16:Nat) / 16 % 16 ≠ 9)
      (by decide : (16:Nat) / 16 % 16 ≠ 15)
  · cases last
    · exact parse_kind_unknown_of_type _ (by decide : (32:Nat) / 16 % 16 ≠ 9)
        (by decide : (32:Nat) / 16 % 16 ≠ 15)
    · exact parse_kind_unknown_of_type _ (by decide : (34:Nat) / 16 % 16 ≠ 9)
        (by decide : (34:Nat) / 16 % 16 ≠ 15)

/-- **C10.** `parseServerMessage` is total and in-bounds on every input:
inputs shorter than 12 bytes never produce a `response` or `error` kind; a
`response` (resp. `error`) kind is returned only when the declared payload
size (resp. message size) fits entirely inside the input,
`12 + size ≤ data.length`; and the returned `json_text` / `error_msg` slice
is exactly `data[12 .. 12+size]`, a contiguous in-bounds slice of the input
of length `size`. -/
theorem C10_parse_total_in_bounds (data : List Nat) :
    (data.length < 12 → (parseServerMessage data).kind = MsgKind.unknown)
    ∧ ((parseServerMessage data).kind = MsgKind.response →
        12 + readU32be data 8 ≤ data.length
        ∧ (parseServerMessage data).json_text
            = some ((data.drop 12).take (readU32be data 8))
        ∧ ((data.drop 12).take (readU32be data 8)).length = readU32be data 8
        ∧ ((data.drop 12).take (readU32be data 8)) <:+: data)
    ∧ ((parseServerMessage data).kind = MsgKind.error →
        12 + readU32be data 8 ≤ data.length
        ∧ (parseServerMessage data).error_msg
            = some ((data.drop 12).take (readU32be data 8))
        ∧ (parseServerMessage data).error_code = some (readU32be data 4)
        ∧ ((data.drop 12).take (readU32be data 8)) <:+: data) := by
  have hinf : ((data.drop 12).take (readU32be data 8)) <:+: data :=
    (List.take_prefix (readU32be data 8) (data.drop 12)).isInfix.trans
      (data.drop_suffix 12).isInfix
  have hlen : ¬ data.length < 12 + readU32be data 8 →
      ((data.drop 12).take (readU32be data 8)).length = readU32be data 8 := by
    intro h
    simp only [List.length_take, List.length_drop]
    omega
  unfold parseServerMessage
  split_ifs with h1 h2 h3 h4 h5 h6 h7 <;>
    refine ⟨fun hl => ?_, fun hk => ?_, fun hk => ?_⟩ <;>
    first
      | rfl
      | exact (h3 hl).elim
      | exact ⟨by omega, rfl, hlen (by assumption), hinf⟩
      | exact ⟨by omega, rfl, rfl, hinf⟩
      | cases hk

/-- **C10, witness.** A concrete well-formed error frame (code 5, two-byte
message `[65, 66]`) exercises the bounds and the returned slice. -/
theorem C10_parse_total_in_bounds_witness :
    12 + readU32be [17, 240, 16, 0, 0, 0, 0, 5, 0, 0, 0, 2, 65, 66] 8
        ≤ (([17, 240, 16, 0, 0, 0, 0, 5, 0, 0, 0, 2, 65, 66] : List Nat)).length
      ∧ (parseServerMessage [17, 240, 16, 0, 0, 0, 0, 5, 0, 0, 0, 2, 65, 66]).error_msg
          = some [65, 66]
      ∧ (parseServerMessage [17, 240, 16, 0, 0, 0, 0, 5, 0, 0, 0, 2, 65, 66]).error_code
          = some 5 := by
  have h := (C10_parse_total_in_bounds
    [17, 240, 16, 0, 0, 0, 0, 5, 0, 0, 0, 2, 65, 66]).2.2 (by decide)
  exact ⟨h.1, h.2.1.trans (by decide), h.2.2.1.trans (by decide)⟩

/-! ## Response interpreter (json.zig `parseAsrResponse`)

Texts are `List Char`.  The `std.json` parse of the payload is external
library code; the interpreter's view of the parsed document — whether a
usable `result` exists, the `result.utterances` array elements' `definite`,
`end_time` and `text` fields, and `result.text` — is modelled as explicit
data, and everything the interpreter itself computes on that view is
translated from the source. -/

/-- The characters `std.mem.trim(u8, s, " \t\r\n")` strips. -/
def isAsrSpace (c : Char) : Bool :=
  c = ' ' ∨ c = '\t' ∨ c = '\r' ∨ c = '\n'

/-- `std.mem.trim`: remove leading and trailing whitespace characters. -/
def trimAsr (s : List Char) : List Char :=
  ((s.dropWhile isAsrSpace).reverse.dropWhile isAsrSpace).reverse

lemma dropWhile_dropWhile_self (p : Char → Bool) (l : List Char) :
    (l.dropWhile p).dropWhile p = l.dropWhile p := by
  induction l with
  | nil => rfl
  | cons a t ih =>
    by_cases h : p a
    · simpa [List.dropWhile_cons, h] using ih
    · simp [List.dropWhile_cons, h]

lemma dropWhile_eq_self_of_prefix (p : Char → Bool) (l v : List Char)
    (hl : l.dropWhile p = l) (hv : v <+: l) : v.dropWhile p = v := by
  cases v with
  | nil => rfl
  | cons a t =>
    obtain ⟨r, hr⟩ := hv
    by_cases h : p a
    · exfalso
      rw [← hr, List.cons_append, List.dropWhile_cons_of_pos h] at hl
      have h1 := (List.dropWhile_sublist (l := t ++ r) p).length_le
      have h2 := congrArg List.length hl
      simp only [List.length_cons, List.length_append] at h1 h2
      omega
    · exact List.dropWhile_cons_of_neg h

/-- Trimming is idempotent. -/
lemma trimAsr_trimAsr (s : List Char) : trimAsr (trimAsr s) = trimAsr s := by
  unfold trimAsr
  set u := s.dropWhile isAsrSpace with hu
  have hustable : u.dropWhile isAsrSpace = u := dropWhile_dropWhile_self _ _
  set w := u.reverse.dropWhile isAsrSpace with hw
  have hwstable : w.dropWhile isAsrSpace = w := dropWhile_dropWhile_self _ _
  have hwpre : w.reverse <+: u := by
    have hsuf : w <:+ u.reverse := List.dropWhile_suffix _
    have := hsuf.reverse
    simpa using this
  have h1 : w.reverse.dropWhile isAsrSpace = w.reverse :=
    dropWhile_eq_self_of_prefix _ u w.reverse hustable hwpre
  rw [h1, List.reverse_reverse, hwstable]

/-- The JSON scalar shapes the interpreter distinguishes in a field. -/
inductive JVal where
  | vBool (b : Bool)
  | vInt (i : Int)
  | vStr (s : List Char)
  | vOther
deriving DecidableEq, Repr

/-- The three fields of one `result.utterances` object that the code reads
(`obj.get("definite")`, `obj.get("end_time")`, `obj.get("text")`;
`none` = key absent). -/
structure UttFields where
  definite : Option JVal := none
  end_time : Option JVal := none
  text : Option JVal := none
deriving DecidableEq, Repr

/-- One element of the `result.utterances` array: an object or not
(the code skips non-object elements with `if (u != .object) continue`). -/
inductive UttElem where
  | obj (f : UttFields)
  | nonObj
deriving DecidableEq, Repr

/-- `definite` as the code computes it:
`if (obj.get("definite")) |d| (d == .bool and d.bool) else false`. -/
def uttDefinite (f : UttFields) : Bool :=
  match f.definite with
  | some (.vBool b) => b
  | _ => false

/-- `end_time` as the code computes it: the integer value when present as an
integer, −1 otherwise. -/
def uttEndTime (f : UttFields) : Int :=
  match f.end_time with
  | some (.vInt i) => i
  | _ => -1

/-- The `text` field when present as a JSON string. -/
def uttText (f : UttFields) : Option (List Char) :=
  match f.text with
  | some (.vStr s) => some s
  | _ => none

/-- The finals-collecting pass over `result.utterances` (json.zig lines
“Collect finals (definite utterances with new end_time)”): for each object
element with `definite`, whose `end_time` exceeds the committed watermark and
whose trimmed text is non-empty, append the trimmed text and advance the
watermark.  Returns the appended finals and the final watermark. -/
def collectFinals (us : List UttElem) (lcet : Int) : List (List Char) × Int :=
  match us with
  | [] => ([], lcet)
  | .nonObj :: rest => collectFinals rest lcet
  | .obj f :: rest =>
    if ¬ uttDefinite f then collectFinals rest lcet
    else if uttEndTime f ≤ lcet then collectFinals rest lcet
    else match uttText f with
      | none => collectFinals rest lcet
      | some t =>
        if (trimAsr t).length > 0 then
          let r := collectFinals rest (uttEndTime f)
          (trimAsr t :: r.1, r.2)
        else collectFinals rest lcet

/-- Instrumented variant of `collectFinals` that records, next to each final
text, the `end_time` at which it was committed (the value the watermark is
advanced to).  `collectFinalsE_proj` shows it is the same computation. -/
def collectFinalsE (us : List UttElem) (lcet : Int) : List ((List Char) × Int) × Int :=
  match us with
  | [] => ([], lcet)
  | .nonObj :: rest => collectFinalsE rest lcet
  | .obj f :: rest =>
    if ¬ uttDefinite f then collectFinalsE rest lcet
    else if uttEndTime f ≤ lcet then collectFinalsE rest lcet
    else match uttText f with
      | none => collectFinalsE rest lcet
      | some t =>
        if (trimAsr t).length > 0 then
          let r := collectFinalsE rest (uttEndTime f)
          ((trimAsr t, uttEndTime f) :: r.1, r.2)
        else collectFinalsE rest lcet

/-- The instrumented pass projects onto the code's pass: same final texts in
the same order, same final watermark. -/
lemma collectFinalsE_proj (us : List UttElem) (lcet : Int) :
    (collectFinalsE us lcet).1.map Prod.fst = (collectFinals us lcet).1
      ∧ (collectFinalsE us lcet).2 = (collectFinals us lcet).2 := by
  induction us generalizing lcet with
  | nil => exact ⟨rfl, rfl⟩
  | cons u rest ih =>
    cases u with
    | nonObj => exact ih lcet
    | obj f =>
      by_cases hd : uttDefinite f
      · by_cases he : uttEndTime f ≤ lcet
        · simp only [collectFinals, collectFinalsE, hd, he]
          simpa using ih lcet
        · cases ht : uttText f with
          | none =>
            simp only [collectFinals, collectFinalsE, hd, he, ht]
            simpa using ih lcet
          | some t =>
            by_cases hl : (trimAsr t).length > 0
            · simp only [collectFinals, collectFinalsE, hd, he, ht, hl, List.map_cons]
              exact ⟨by simp [(ih (uttEndTime f)).1], (ih (uttEndTime f)).2⟩
            · simp only [collectFinals, collectFinalsE, hd, he, ht, if_neg hl]
              simpa using ih lcet
      · simp only [collectFinals, collectFinalsE, hd]
        simpa using ih lcet

/-- The reverse scan for the current non-final ("in progress") text
(json.zig “Find last non-definite utterance for partial”): the probe applied
to one element. -/
def prelimOf : UttElem → Option (List Char)
  | .nonObj => none
  | .obj f =>
    if uttDefinite f then none
    else match uttText f with
      | some t => if (trimAsr t).length > 0 then some (trimAsr t) else none
      | none => none

/-- The last element with `definite == false` and a non-empty trimmed text,
found by scanning the array in reverse. -/
def findPrelim (us : List UttElem) : Option (List Char) :=
  us.reverse.findSome? prelimOf

/-- The `"bidi_async"` mode string. -/
def bidiAsyncMode : List Char := "bidi_async".toList

/-- The `result.text` fallback path of json.zig `parseAsrResponse`, given the
current `last_full_text` and the raw `result.text` string.  Returns
(partial-text?, finals, new `last_full_text`).  In `bidi_async` mode the whole
trimmed text becomes both the partial and a final; otherwise, when the trimmed
text properly extends a non-empty `last_full_text` the non-empty trimmed
suffix is a final, when it differs it is emitted whole, and `last_full_text`
is updated whenever the trimmed text is non-empty. -/
def textFallback (mode lastFull rawText : List Char) :
    Option (List Char) × List (List Char) × List Char :=
  let full := trimAsr rawText
  if full.length > 0 then
    if mode = bidiAsyncMode then
      (some full, [full], full)
    else if lastFull.length > 0 ∧ lastFull <+: full then
      if (trimAsr (full.drop lastFull.length)).length > 0 then
        (none, [trimAsr (full.drop lastFull.length)], full)
      else
        (none, [], full)
    else if full ≠ lastFull then
      (none, [full], full)
    else
      (none, [], full)
  else (none, [], lastFull)

/-- Whether the `result.utterances` field value is a JSON array
(the code requires `utterances_val == .array` to take the utterances path). -/
inductive UttVal where
  | arr (elems : List UttElem)
  | notArr
deriving DecidableEq, Repr

/-- What json.zig `parseAsrResponse` sees of a response after the external
`std.json` parse: either no usable document (malformed JSON, or no `result`
member — both produce no events), or the `result` object's `utterances` and
`text` members. -/
inductive AsrResponseJson where
  | invalid
  | result (utterances : Option UttVal) (text : Option JVal)
deriving DecidableEq, Repr

/-- json.zig `parseAsrResponse` dispatch: if `result.utterances` is an array
the utterances path runs (finals pass then reverse scan; `last_full_text` is
untouched); otherwise the `result.text` fallback runs (the committed-end-time
watermark is untouched).  Returns (partial?, finals, watermark, last_full). -/
def parseAsrResponse (j : AsrResponseJson) (mode : List Char)
    (lcet : Int) (lastFull : List Char) :
    Option (List Char) × List (List Char) × Int × List Char :=
  match j with
  | .invalid => (none, [], lcet, lastFull)
  | .result utts text =>
    match utts with
    | some (.arr us) =>
      let r := collectFinals us lcet
      (findPrelim us, r.1, r.2, lastFull)
    | _ =>
      match text with
      | some (.vStr s) =>
        let r := textFallback mode lastFull s
        (r.1, r.2.1, lcet, r.2.2)
      | _ => (none, [], lcet, lastFull)

/-- A sequence of responses taking the utterances path against the same
threaded watermark, with the committed `end_time` recorded next to each final
(instrumented as in `collectFinalsE`). -/
def runUtterancesE (rs : List (List UttElem)) (lcet : Int) :
    List ((List Char) × Int) × Int :=
  match rs with
  | [] => ([], lcet)
  | us :: rest =>
    let r := collectFinalsE us lcet
    let r' := runUtterancesE rest r.2
    (r.1 ++ r'.1, r'.2)


/-- Step equation: a non-object element contributes nothing. -/
lemma collectFinalsE_cons_nonObj (rest : List UttElem) (lcet : Int) :
    collectFinalsE (UttElem.nonObj :: rest) lcet = collectFinalsE rest lcet := rfl

/-- Step equation: a non-definite element contributes no final. -/
lemma collectFinalsE_cons_notDefinite (f : UttFields) (rest : List UttElem) (lcet : Int)
    (hd : uttDefinite f = false) :
    collectFinalsE (UttElem.obj f :: rest) lcet = collectFinalsE rest lcet := by
  simp [collectFinalsE, hd]

/-- Step equation: an element whose `end_time` does not exceed the committed
watermark contributes no final and does not move the watermark (this covers
re-delivery of an already committed utterance). -/
lemma collectFinalsE_cons_stale (f : UttFields) (rest : List UttElem) (lcet : Int)
    (he : uttEndTime f ≤ lcet) :
    collectFinalsE (UttElem.obj f :: rest) lcet = collectFinalsE rest lcet := by
  by_cases hd : uttDefinite f <;> simp [collectFinalsE, hd, he]

/-- Step equation: a definite element without a string `text` contributes
nothing, even when its `end_time` is new. -/
lemma collectFinalsE_cons_noText (f : UttFields) (rest : List UttElem) (lcet : Int)
    (he : lcet < uttEndTime f) (ht : uttText f = none) :
    collectFinalsE (UttElem.obj f :: rest) lcet = collectFinalsE rest lcet := by
  by_cases hd : uttDefinite f <;> simp [collectFinalsE, hd, not_le.mpr he, ht]

/-- Step equation: a definite element whose text trims to empty contributes
no final and leaves the watermark unchanged. -/
lemma collectFinalsE_cons_empty (f : UttFields) (rest : List UttElem) (lcet : Int)
    (t : List Char) (he : lcet < uttEndTime f) (ht : uttText f = some t)
    (hl : trimAsr t = []) :
    collectFinalsE (UttElem.obj f :: rest) lcet = collectFinalsE rest lcet := by
  by_cases hd : uttDefinite f <;> simp [collectFinalsE, hd, not_le.mpr he, ht, hl]

/-- Step equation: a definite element with a new `end_time` and non-empty
trimmed text emits that trimmed text as a final and advances the watermark to
its `end_time` before the rest of the array is processed. -/
lemma collectFinalsE_cons_emit (f : UttFields) (rest : List UttElem) (lcet : Int)
    (t : List Char) (hd : uttDefinite f = true) (he : lcet < uttEndTime f)
    (ht : uttText f = some t) (hl : trimAsr t ≠ []) :
    collectFinalsE (UttElem.obj f :: rest) lcet
      = ((trimAsr t, uttEndTime f) :: (collectFinalsE rest (uttEndTime f)).1,
         (collectFinalsE rest (uttEndTime f)).2) := by
  simp [collectFinalsE, hd, not_le.mpr he, ht, List.length_pos.mpr hl]

/-- Watermark facts for one finals pass: every committed `end_time` exceeds
the incoming watermark, the recorded `end_time`s strictly increase, the
watermark never moves backwards, and it ends at or above every recorded
`end_time`. -/
lemma collectFinalsE_spec (us : List UttElem) (lcet : Int) :
    (∀ x ∈ (collectFinalsE us lcet).1.map Prod.snd, lcet < x)
    ∧ ((collectFinalsE us lcet).1.map Prod.snd).Pairwise (· < ·)
    ∧ lcet ≤ (collectFinalsE us lcet).2
    ∧ (∀ x ∈ (collectFinalsE us lcet).1.map Prod.snd, x ≤ (collectFinalsE us lcet).2) := by
  induction us generalizing lcet with
  | nil =>
    refine ⟨?_, ?_, le_refl _, ?_⟩ <;> simp [collectFinalsE]
  | cons u rest ih =>
    cases u with
    | nonObj => rw [collectFinalsE_cons_nonObj]; exact ih lcet
    | obj f =>
      by_cases hd : uttDefinite f
      · by_cases he : uttEndTime f ≤ lcet
        · rw [collectFinalsE_cons_stale f rest lcet he]; exact ih lcet
        · push_neg at he
          cases ht : uttText f with
          | none => rw [collectFinalsE_cons_noText f rest lcet he ht]; exact ih lcet
          | some t =>
            by_cases hl : trimAsr t = []
            · rw [collectFinalsE_cons_empty f rest lcet t he ht hl]; exact ih lcet
            · rw [collectFinalsE_cons_emit f rest lcet t hd he ht hl]
              obtain ⟨ih1, ih2, ih3, ih4⟩ := ih (uttEndTime f)
              simp only [List.map_cons, List.mem_cons, List.pairwise_cons]
              refine ⟨?_, ⟨ih1, ih2⟩, le_of_lt (lt_of_lt_of_le he ih3), ?_⟩
              · rintro x (rfl | hx)
                · exact he
                · exact lt_trans he (ih1 x hx)
              · rintro x (rfl | hx)
                · exact ih3
                · exact ih4 x hx
      · rw [collectFinalsE_cons_notDefinite f rest lcet
          (by simpa using hd)]
        exact ih lcet

/-- Watermark facts for a whole session of utterances-path responses:
every committed `end_time` exceeds the starting watermark, the committed
`end_time`s strictly increase across the whole run, the watermark is
monotone, and it ends at or above every committed `end_time`. -/
lemma runUtterancesE_spec (rs : List (List UttElem)) (lcet : Int) :
    (∀ x ∈ (runUtterancesE rs lcet).1.map Prod.snd, lcet < x)
    ∧ ((runUtterancesE rs lcet).1.map Prod.snd).Pairwise (· < ·)
    ∧ lcet ≤ (runUtterancesE rs lcet).2
    ∧ (∀ x ∈ (runUtterancesE rs lcet).1.map Prod.snd, x ≤ (runUtterancesE rs lcet).2) := by
  induction rs generalizing lcet with
  | nil => refine ⟨?_, ?_, le_refl _, ?_⟩ <;> simp [runUtterancesE]
  | cons us rest ih =>
    obtain ⟨c1, c2, c3, c4⟩ := collectFinalsE_spec us lcet
    obtain ⟨r1, r2, r3, r4⟩ := ih (collectFinalsE us lcet).2
    have hrun : runUtterancesE (us :: rest) lcet
        = ((collectFinalsE us lcet).1 ++ (runUtterancesE rest (collectFinalsE us lcet).2).1,
           (runUtterancesE rest (collectFinalsE us lcet).2).2) := rfl
    rw [hrun]
    simp only [List.map_append, List.mem_append, List.pairwise_append]
    refine ⟨?_, ⟨c2, r2, ?_⟩, le_trans c3 r3, ?_⟩
    · rintro x (hx | hx)
      · exact c1 x hx
      · exact lt_of_le_of_lt c3 (r1 x hx)
    · intro x hx y hy
      exact lt_of_le_of_lt (c4 x hx) (r1 y hy)
    · rintro x (hx | hx)
      · exact le_trans (c4 x hx) r3
      · exact r4 x hx

/-- **C2.** Utterances path of `parseAsrResponse`.
(1) The utterances path computes the finals pass and the reverse scan, with
`last_full_text` untouched (tie to the interpreter dispatch).
(2) Step characterization for a definite element with a string text: it emits
a final exactly when its `end_time` strictly exceeds the committed watermark
and its trimmed text is non-empty, and then the watermark advances to that
`end_time` for the rest of the processing; otherwise it contributes nothing —
in particular re-delivery of an already committed utterance (`end_time` at or
below the watermark) produces no duplicate final.
(3) Across any sequence of responses processed against the same threaded
state, the `end_time`s committed with the emitted finals are strictly
increasing. -/
theorem C2_utterances_finals_monotone :
    (∀ us txt mode lcet lastFull,
        parseAsrResponse (AsrResponseJson.result (some (UttVal.arr us)) txt) mode lcet lastFull
          = (findPrelim us,
             (collectFinalsE us lcet).1.map Prod.fst,
             (collectFinalsE us lcet).2, lastFull))
    ∧ (∀ f rest lcet t, uttDefinite f = true → uttText f = some t →
        (lcet < uttEndTime f → trimAsr t ≠ [] →
            collectFinalsE (UttElem.obj f :: rest) lcet
              = ((trimAsr t, uttEndTime f) :: (collectFinalsE rest (uttEndTime f)).1,
                 (collectFinalsE rest (uttEndTime f)).2))
          ∧ (uttEndTime f ≤ lcet →
              collectFinalsE (UttElem.obj f :: rest) lcet = collectFinalsE rest lcet)
          ∧ (trimAsr t = [] →
              collectFinalsE (UttElem.obj f :: rest) lcet = collectFinalsE rest lcet))
    ∧ (∀ rs lcet, ((runUtterancesE rs lcet).1.map Prod.snd).Pairwise (· < ·)
          ∧ ∀ x ∈ (runUtterancesE rs lcet).1.map Prod.snd, lcet < x) := by
  refine ⟨?_, ?_, ?_⟩
  · intro us txt mode lcet lastFull
    have h := collectFinalsE_proj us lcet
    simp [parseAsrResponse, h.1, h.2]
  · intro f rest lcet t hd ht
    refine ⟨fun he hl => collectFinalsE_cons_emit f rest lcet t hd he ht hl,
            fun he => collectFinalsE_cons_stale f rest lcet he,
            fun hl => ?_⟩
    rcases le_or_lt (uttEndTime f) lcet with he | he
    · exact collectFinalsE_cons_stale f rest lcet he
    · exact collectFinalsE_cons_empty f rest lcet t he ht hl
  · intro rs lcet
    obtain ⟨h1, h2, _, _⟩ := runUtterancesE_spec rs lcet
    exact ⟨h2, h1⟩

/-- **C2, witness.** The spec's own two-response scenario: response A commits
`end_time = 860`, response B re-delivers it (suppressed) and commits
`end_time = 1400`; the finals come out committed at 860 then 1400,
strictly increasing, with no duplicate. -/
theorem C2_utterances_finals_monotone_witness :
    collectFinalsE
        [UttElem.obj { definite := some (JVal.vBool true),
                       end_time := some (JVal.vInt 860),
                       text := some (JVal.vStr ['n', 'i']) }]
        (-1)
      = ([(['n', 'i'], 860)], 860)
    ∧ runUtterancesE
        [ [UttElem.obj { definite := some (JVal.vBool true),
                         end_time := some (JVal.vInt 860),
                         text := some (JVal.vStr ['n', 'i']) }],
          [UttElem.obj { definite := some (JVal.vBool true),
                         end_time := some (JVal.vInt 860),
                         text := some (JVal.vStr ['n', 'i']) },
            UttElem.obj { definite := some (JVal.vBool true),
                          end_time := some (JVal.vInt 1400),
                          text := some (JVal.vStr ['s', 'j']) }] ]
        (-1)
      = ([(['n', 'i'], 860), (['s', 'j'], 1400)], 1400) := by
  have h := (C2_utterances_finals_monotone.2.1
      { definite := some (JVal.vBool true),
        end_time := some (JVal.vInt 860),
        text := some (JVal.vStr ['n', 'i']) }
      [] (-1) ['n', 'i'] (by decide) (by decide)).1
      (by decide) (by decide)
  exact ⟨h.trans (by decide), by decide⟩


/-- **C5.** The `result.text` fallback for every mode other than `bidi_async`:
with `t` the trimmed new full text (assumed non-empty), if `t` starts with
`last_full_text` the non-empty trimmed suffix of `t` after `last_full_text`
is emitted as the single final (no final when that suffix trims to empty —
e.g. unchanged text); otherwise `t` differs from `last_full_text` and the
whole `t` is the single final.  No partial is produced and `last_full_text`
is updated to `t` in all cases. -/
theorem C5_text_fallback_extends (mode lastFull raw : List Char)
    (hm : mode ≠ bidiAsyncMode) (ht : trimAsr raw ≠ []) :
    textFallback mode lastFull raw
      = (none,
         (if lastFull <+: trimAsr raw then
            (if trimAsr ((trimAsr raw).drop lastFull.length) = [] then []
             else [trimAsr ((trimAsr raw).drop lastFull.length)])
          else [trimAsr raw]),
         trimAsr raw) := by
  have hfull : (trimAsr raw).length > 0 := List.length_pos.mpr ht
  cases lastFull with
  | nil =>
    have hpre : ([] : List Char) <+: trimAsr raw := List.nil_prefix
    simp only [textFallback, if_pos hfull, if_neg hm]
    rw [if_neg (by simp), if_pos (by simpa using ht), if_pos hpre]
    simp [trimAsr_trimAsr, ht]
  | cons a l =>
    by_cases hpre : (a :: l) <+: trimAsr raw
    · simp only [textFallback, if_pos hfull, if_neg hm,
        if_pos (⟨by simp, hpre⟩ : (a :: l).length > 0 ∧ (a :: l) <+: trimAsr raw),
        if_pos hpre]
      by_cases hs : trimAsr ((trimAsr raw).drop (l.length + 1)) = []
      · simp [hs]
      · simp [hs, List.length_pos.mpr hs]
    · have hne : trimAsr raw ≠ a :: l := fun hh => hpre (hh ▸ List.prefix_refl _)
      simp only [textFallback, if_pos hfull, if_neg hm,
        if_neg ((fun hc => hpre hc.2) :
          ¬((a :: l).length > 0 ∧ (a :: l) <+: trimAsr raw)),
        if_neg hpre, if_pos hne]

/-- **C5, witness.** The spec's scenario: `result.text` arrives as `"a"` then
`"a b"` in a non-`bidi_async` mode; the finals are `"a"` then `"b"`, and
`last_full_text` tracks the full text. -/
theorem C5_text_fallback_extends_witness :
    textFallback ['b', 'i', 'd', 'i'] [] ['a'] = (none, [['a']], ['a'])
    ∧ textFallback ['b', 'i', 'd', 'i'] ['a'] ['a', ' ', 'b']
        = (none, [['b']], ['a', ' ', 'b']) := by
  have h1 := C5_text_fallback_extends ['b', 'i', 'd', 'i'] [] ['a']
    (by decide) (by decide)
  have h2 := C5_text_fallback_extends ['b', 'i', 'd', 'i'] ['a'] ['a', ' ', 'b']
    (by decide) (by decide)
  exact ⟨h1.trans (by decide), h2.trans (by decide)⟩

/-- **C6.** In `bidi_async` mode, a response whose `result` carries no usable
utterances array (key absent, or present but not an array) and whose
`result.text` trims to a non-empty `t` makes `parseAsrResponse` return `t`
both as the single partial and as the single final (and `last_full_text`
becomes `t`; the watermark is untouched). -/
theorem C6_bidi_async_text_duplicated (utts : Option UttVal) (s : List Char)
    (lcet : Int) (lastFull : List Char)
    (hu : ∀ l, utts ≠ some (UttVal.arr l)) (ht : trimAsr s ≠ []) :
    parseAsrResponse (AsrResponseJson.result utts (some (JVal.vStr s)))
        bidiAsyncMode lcet lastFull
      = (some (trimAsr s), [trimAsr s], lcet, trimAsr s) := by
  have hfb : textFallback bidiAsyncMode lastFull s
      = (some (trimAsr s), [trimAsr s], trimAsr s) := by
    simp [textFallback, List.length_pos.mpr ht]
  rcases utts with _ | v
  · simp [parseAsrResponse, hfb]
  · rcases v with l | _
    · exact absurd rfl (hu l)
    · simp [parseAsrResponse, hfb]

/-- **C6, witness.** A concrete `bidi_async` response without utterances and
with `result.text = " hi "`. -/
theorem C6_bidi_async_text_duplicated_witness :
    parseAsrResponse
        (AsrResponseJson.result none (some (JVal.vStr [' ', 'h', 'i', ' '])))
        bidiAsyncMode 0 []
      = (some ['h', 'i'], [['h', 'i']], 0, ['h', 'i']) := by
  have h := C6_bidi_async_text_duplicated none [' ', 'h', 'i', ' '] 0 []
    (fun l hl => by cases hl) (by decide)
  exact h.trans (by decide)

/-- **C1, amended, witness.** The amended statement evaluated at payload
`[97]` with `last = true`. -/
theorem C1_encode_preserves_payload_witness :
    (buildFullClientRequest [97]).length = 8 + ([97] : List Nat).length
      ∧ (buildFullClientRequest [97]).drop 8 = [97]
      ∧ readU32be (buildFullClientRequest [97]) 4 = ([97] : List Nat).length
      ∧ (buildAudioOnlyRequest [97] true).length = 8 + ([97] : List Nat).length
      ∧ (buildAudioOnlyRequest [97] true).drop 8 = [97]
      ∧ readU32be (buildAudioOnlyRequest [97] true) 4 = ([97] : List Nat).length
      ∧ (parseServerMessage (buildFullClientRequest [97])).kind = MsgKind.unknown
      ∧ (parseServerMessage (buildAudioOnlyRequest [97] true)).kind = MsgKind.unknown :=
  C1_encode_preserves_payload [97] true (by decide)

/-! ## AudioRing (asr.zig)

The lock-free SPSC ring of audio chunks.  The two index atomics and the slot
array are modelled as plain state, and an execution is a *sequential*
interleaving of `push` and `pop` operations — the SPSC memory-ordering
argument itself (acquire/release pairing) is outside a shallow embedding,
but under it every concurrent SPSC execution is equivalent to such an
interleaving. -/

/-- `AudioRing.SLOTS` in asr.zig. -/
def SLOTS : Nat := 32

/-- `CHUNK_BYTES` in audio.zig: 1280 bytes per 40 ms chunk. -/
def CHUNK_BYTES : Nat := 1280

/-- The ring state: 32 chunk slots plus the two positions (both always kept
below `SLOTS` by the code, which stores `(pos + 1) % SLOTS`). -/
structure AudioRing where
  slots : List (List Nat)
  write_pos : Nat
  read_pos : Nat
deriving DecidableEq, Repr

/-- Effect of `@memcpy(slot[0..len], data[0..len])` with
`len = @min(data.len, CHUNK_BYTES)`: the first `len` bytes come from `data`,
the rest of the slot is untouched. -/
def storeChunk (old data : List Nat) : List Nat :=
  data.take (min data.length CHUNK_BYTES) ++ old.drop (min data.length CHUNK_BYTES)

/-- asr.zig `AudioRing.push`: drop (no-op) when `(write+1) % SLOTS == read`,
otherwise copy into slot `write % SLOTS` and advance the write position. -/
def AudioRing.push (r : AudioRing) (data : List Nat) : AudioRing :=
  if (r.write_pos + 1) % SLOTS = r.read_pos then r
  else
    { r with
      slots := r.slots.set (r.write_pos % SLOTS)
        (storeChunk (r.slots.getD (r.write_pos % SLOTS) []) data),
      write_pos := (r.write_pos + 1) % SLOTS }

/-- asr.zig `AudioRing.pop`: `none` when `read == write`, otherwise return
slot `read % SLOTS` and advance the read position. -/
def AudioRing.pop (r : AudioRing) : Option (List Nat) × AudioRing :=
  if r.read_pos = r.write_pos then (none, r)
  else (some (r.slots.getD (r.read_pos % SLOTS) []),
        { r with read_pos := (r.read_pos + 1) % SLOTS })

/-- Number of chunks currently buffered (difference of the positions,
modulo `SLOTS`). -/
def ringCount (r : AudioRing) : Nat :=
  (r.write_pos + SLOTS - r.read_pos) % SLOTS

/-- State well-formedness maintained by the code: positions below `SLOTS`,
exactly `SLOTS` slots, every slot at most one chunk long (the slot array
entries are `CHUNK_BYTES` arrays). -/
@[reducible] def AudioRing.wf (r : AudioRing) : Prop :=
  r.write_pos < SLOTS ∧ r.read_pos < SLOTS ∧ r.slots.length = SLOTS
    ∧ ∀ s ∈ r.slots, s.length ≤ CHUNK_BYTES

/-- The abstract queue a ring state represents: the buffered chunks from the
read position onward. -/
def absQ (r : AudioRing) : List (List Nat) :=
  (List.range (ringCount r)).map
    (fun i => r.slots.getD ((r.read_pos + i) % SLOTS) [])

/-- A ring with both positions at zero (the initial state; the slot array is
uninitialized in the code, so the initial slot contents are arbitrary). -/
def mkRing (slots0 : List (List Nat)) : AudioRing :=
  { slots := slots0, write_pos := 0, read_pos := 0 }

/-- The initial ring used by concrete executions. -/
def emptyRing : AudioRing := mkRing (List.replicate SLOTS [])

lemma absQ_length (r : AudioRing) : (absQ r).length = ringCount r := by
  simp [absQ]

/-- A full-size chunk is stored verbatim in a well-formed slot. -/
lemma storeChunk_full (old c : List Nat) (hc : c.length = CHUNK_BYTES)
    (hold : old.length ≤ CHUNK_BYTES) : storeChunk old c = c := by
  unfold storeChunk
  rw [hc, min_self, List.drop_eq_nil_of_le (by omega), List.append_nil,
    List.take_of_length_le (by omega)]

lemma getD_set_ne (l : List (List Nat)) (i j : Nat) (a : List Nat) (h : i ≠ j) :
    (l.set i a).getD j [] = l.getD j [] := by
  simp [List.getD_eq_getElem?_getD, List.getElem?_set_ne h]

lemma getD_set_self (l : List (List Nat)) (i : Nat) (a : List Nat) (h : i < l.length) :
    (l.set i a).getD i [] = a := by
  simp [List.getD_eq_getElem?_getD, List.getElem?_set_self h]

lemma getD_mem (l : List (List Nat)) (i : Nat) (h : i < l.length) :
    l.getD i [] ∈ l := by
  rw [List.getD_eq_getElem?_getD, List.getElem?_eq_getElem h]
  exact List.getElem_mem h

lemma storeChunk_le (old c : List Nat) (hold : old.length ≤ CHUNK_BYTES) :
    (storeChunk old c).length ≤ CHUNK_BYTES := by
  simp only [storeChunk, List.length_append, List.length_take, List.length_drop]
  omega

/-- A push on a non-full well-formed ring: the state stays well formed, the
read position is untouched, the count grows by one, and the abstract queue
gains the stored chunk at its back. -/
lemma push_spec (r : AudioRing) (c : List Nat) (hwf : r.wf) (hcnt : ringCount r < 31) :
    (r.push c).wf
    ∧ (r.push c).read_pos = r.read_pos
    ∧ ringCount (r.push c) = ringCount r + 1
    ∧ absQ (r.push c)
        = absQ r ++ [storeChunk (r.slots.getD (r.write_pos % SLOTS) []) c] := by
  obtain ⟨hw, hr, hsl, hmem⟩ := hwf
  have hS : SLOTS = 32 := rfl
  rw [hS] at hw hr hsl
  have hcnt' : (r.write_pos + 32 - r.read_pos) % 32 < 31 := by
    simpa [ringCount, hS] using hcnt
  have hnotfull : ¬ (r.write_pos + 1) % SLOTS = r.read_pos := by rw [hS]; omega
  have hwmod : r.write_pos % 32 = r.write_pos := Nat.mod_eq_of_lt hw
  have hpush : r.push c
      = { r with
          slots := r.slots.set (r.write_pos % SLOTS)
            (storeChunk (r.slots.getD (r.write_pos % SLOTS) []) c),
          write_pos := (r.write_pos + 1) % SLOTS } := by
    unfold AudioRing.push
    rw [if_neg hnotfull]
  have holdmem : r.slots.getD (r.write_pos % SLOTS) [] ∈ r.slots := by
    refine getD_mem _ _ ?_
    rw [hS, hsl, hwmod]; exact hw
  have hcount : ringCount (r.push c) = ringCount r + 1 := by
    rw [hpush]
    simp only [ringCount, hS]
    omega
  refine ⟨⟨?_, ?_, ?_, ?_⟩, by rw [hpush], hcount, ?_⟩
  · rw [hpush, hS]
    exact Nat.mod_lt _ (by omega)
  · rw [hpush, hS]; exact hr
  · rw [hpush]
    simp only [List.length_set]
    rw [hS]; exact hsl
  · rw [hpush]
    intro s hs
    rcases List.mem_or_eq_of_mem_set hs with h | h
    · exact hmem s h
    · exact h ▸ storeChunk_le _ c (hmem _ holdmem)
  · rw [absQ, hcount, List.range_succ, List.map_append]
    have hread : (r.push c).read_pos = r.read_pos := by rw [hpush]
    have hslots : (r.push c).slots
        = r.slots.set (r.write_pos % SLOTS)
            (storeChunk (r.slots.getD (r.write_pos % SLOTS) []) c) := by rw [hpush]
    refine congrArg₂ (· ++ ·) ?_ ?_
    · rw [absQ]
      refine List.map_congr_left ?_
      intro i hi
      rw [List.mem_range] at hi
      rw [hread, hslots, hS, hwmod]
      refine getD_set_ne _ _ _ _ ?_
      simp only [ringCount, hS] at hi
      omega
    · rw [hread, hslots]
      simp only [List.map_cons, List.map_nil]
      have hidx : (r.read_pos + ringCount r) % SLOTS = r.write_pos % SLOTS := by
        simp only [ringCount, hS]
        omega
      rw [hidx, getD_set_self]
      rw [hS, hsl, hwmod]; exact hw

/-- A pop on an empty ring returns nothing and changes nothing. -/
lemma pop_empty (r : AudioRing) (h : r.read_pos = r.write_pos) :
    r.pop = (none, r) := by
  unfold AudioRing.pop
  rw [if_pos h]

/-- A pop on a non-empty well-formed ring returns the chunk at the read
position — the head of the abstract queue — and the successor state
represents the queue's tail. -/
lemma pop_spec (r : AudioRing) (hwf : r.wf) (hne : r.read_pos ≠ r.write_pos) :
    r.pop = (some (r.slots.getD (r.read_pos % SLOTS) []),
             { r with read_pos := (r.read_pos + 1) % SLOTS })
    ∧ ({ r with read_pos := (r.read_pos + 1) % SLOTS } : AudioRing).wf
    ∧ absQ r = r.slots.getD (r.read_pos % SLOTS) []
        :: absQ { r with read_pos := (r.read_pos + 1) % SLOTS } := by
  obtain ⟨hw, hr, hsl, hmem⟩ := hwf
  have hS : SLOTS = 32 := rfl
  rw [hS] at hw hr hsl
  have hrmod : r.read_pos % 32 = r.read_pos := Nat.mod_eq_of_lt hr
  have hcount : ringCount r
      = ringCount { r with read_pos := (r.read_pos + 1) % SLOTS } + 1 := by
    simp only [ringCount, hS]
    omega
  refine ⟨by unfold AudioRing.pop; rw [if_neg hne], ⟨?_, ?_, ?_, hmem⟩, ?_⟩
  · rw [hS]; exact hw
  · rw [hS]; exact Nat.mod_lt _ (by omega)
  · rw [hS]; exact hsl
  · rw [absQ, hcount, List.range_succ_eq_map, List.map_cons, List.map_map]
    refine congrArg₂ (· :: ·) ?_ ?_
    · simp [hS, hrmod]
    · rw [absQ]
      refine List.map_congr_left ?_
      intro i hi
      simp only [Function.comp_apply]
      have hidx : (r.read_pos + (i + 1)) % SLOTS
          = ((r.read_pos + 1) % SLOTS + i) % SLOTS := by
        simp only [hS]; omega
      rw [hidx]

/-- One operation of a sequential push/pop interleaving. -/
inductive RingOp where
  | push (c : List Nat)
  | pop
deriving DecidableEq, Repr

/-- Run an interleaving from a ring state; returns the final state and the
chunks the consumer observed (successful pops, in order). -/
def runRing (r : AudioRing) : List RingOp → AudioRing × List (List Nat)
  | [] => (r, [])
  | RingOp.push c :: rest => runRing (r.push c) rest
  | RingOp.pop :: rest =>
    ((runRing (r.pop).2 rest).1, ((r.pop).1).toList ++ (runRing (r.pop).2 rest).2)

/-- The producer's pushed sequence of an interleaving. -/
def pushedVals (ops : List RingOp) : List (List Nat) :=
  ops.filterMap (fun op => match op with | RingOp.push c => some c | RingOp.pop => none)

lemma pushedVals_push (c : List Nat) (rest : List RingOp) :
    pushedVals (RingOp.push c :: rest) = c :: pushedVals rest := rfl

lemma pushedVals_pop (rest : List RingOp) :
    pushedVals (RingOp.pop :: rest) = pushedVals rest := rfl

/-- Simulation of the ring against the abstract queue along a full-chunk
interleaving in which, at every prefix, the number of buffered chunks plus
pushes can exceed the consumed chunks by at most `SLOTS − 1 = 31`: the
observed chunks followed by the still-buffered ones are exactly the initial
buffer followed by the pushed sequence. -/
lemma runRing_spec (ops : List RingOp) (r : AudioRing) (hwf : r.wf)
    (hc : ∀ c ∈ pushedVals ops, c.length = CHUNK_BYTES)
    (hb : ∀ n ≤ ops.length,
        (absQ r).length + (pushedVals (ops.take n)).length
          ≤ 31 + (runRing r (ops.take n)).2.length) :
    (runRing r ops).2 ++ absQ (runRing r ops).1 = absQ r ++ pushedVals ops
      ∧ (runRing r ops).1.wf := by
  induction ops generalizing r with
  | nil => exact ⟨by simp [runRing, pushedVals], hwf⟩
  | cons op rest ih =>
    cases op with
    | push c =>
      have hclen : c.length = CHUNK_BYTES := hc c (by simp [pushedVals_push])
      have hcnt : ringCount r < 31 := by
        have h1 := hb 1 (by simp)
        simp only [List.take_succ_cons, List.take_zero, pushedVals_push] at h1
        simp only [runRing, pushedVals, List.filterMap_nil, List.length_cons,
          List.length_nil] at h1
        rw [absQ_length] at h1
        omega
      obtain ⟨hwf', hread', hcount', habs'⟩ := push_spec r c hwf hcnt
      have hstore : storeChunk (r.slots.getD (r.write_pos % SLOTS) []) c = c := by
        refine storeChunk_full _ _ hclen (hwf.2.2.2 _ ?_)
        refine getD_mem _ _ ?_
        have hS : SLOTS = 32 := rfl
        rw [hwf.2.2.1]
        exact Nat.mod_lt _ (by rw [hS]; omega)
      rw [hstore] at habs'
      have hrun : runRing r (RingOp.push c :: rest) = runRing (r.push c) rest := rfl
      have hb' : ∀ n ≤ rest.length,
          (absQ (r.push c)).length + (pushedVals (rest.take n)).length
            ≤ 31 + (runRing (r.push c) (rest.take n)).2.length := by
        intro n hn
        have h2 := hb (n + 1) (by simp; omega)
        simp only [List.take_succ_cons, pushedVals_push, List.length_cons] at h2
        have hlen : (absQ (r.push c)).length = (absQ r).length + 1 := by
          rw [habs']; simp
        have hrun' : runRing r (RingOp.push c :: rest.take n)
            = runRing (r.push c) (rest.take n) := rfl
        rw [hrun'] at h2
        omega
      have hcrest : ∀ d ∈ pushedVals rest, d.length = CHUNK_BYTES := by
        intro d hd
        exact hc d (by rw [pushedVals_push]; exact List.mem_cons_of_mem _ hd)
      obtain ⟨ihe, ihw⟩ := ih (r.push c) hwf' hcrest hb'
      rw [hrun]
      refine ⟨?_, ihw⟩
      rw [ihe, habs', pushedVals_push]
      simp
    | pop =>
      by_cases hrp : r.read_pos = r.write_pos
      · have hpop : r.pop = (none, r) := pop_empty r hrp
        have hrun : runRing r (RingOp.pop :: rest)
            = ((runRing r rest).1, (runRing r rest).2) := by
          simp [runRing, hpop]
        have hb' : ∀ n ≤ rest.length,
            (absQ r).length + (pushedVals (rest.take n)).length
              ≤ 31 + (runRing r (rest.take n)).2.length := by
          intro n hn
          have h2 := hb (n + 1) (by simp; omega)
          simp only [List.take_succ_cons, pushedVals_pop] at h2
          have hrun' : runRing r (RingOp.pop :: rest.take n)
              = ((runRing r (rest.take n)).1, (runRing r (rest.take n)).2) := by
            simp [runRing, hpop]
          rw [hrun'] at h2
          exact h2
        have hcrest : ∀ d ∈ pushedVals rest, d.length = CHUNK_BYTES := fun d hd =>
          hc d (by rw [pushedVals_pop]; exact hd)
        obtain ⟨ihe, ihw⟩ := ih r hwf hcrest hb'
        rw [hrun, pushedVals_pop]
        exact ⟨ihe, ihw⟩
      · obtain ⟨hpop, hwf', habs⟩ := pop_spec r hwf hrp
        have hrun : runRing r (RingOp.pop :: rest)
            = ((runRing { r with read_pos := (r.read_pos + 1) % SLOTS } rest).1,
               r.slots.getD (r.read_pos % SLOTS) []
                 :: (runRing { r with read_pos := (r.read_pos + 1) % SLOTS } rest).2) := by
          simp [runRing, hpop]
        have hb' : ∀ n ≤ rest.length,
            (absQ { r with read_pos := (r.read_pos + 1) % SLOTS }).length
                + (pushedVals (rest.take n)).length
              ≤ 31 + (runRing { r with read_pos := (r.read_pos + 1) % SLOTS }
                  (rest.take n)).2.length := by
          intro n hn
          have h2 := hb (n + 1) (by simp; omega)
          simp only [List.take_succ_cons, pushedVals_pop] at h2
          have hrun' : runRing r (RingOp.pop :: rest.take n)
              = ((runRing { r with read_pos := (r.read_pos + 1) % SLOTS } (rest.take n)).1,
                 r.slots.getD (r.read_pos % SLOTS) []
                   :: (runRing { r with read_pos := (r.read_pos + 1) % SLOTS }
                       (rest.take n)).2) := by
            simp [runRing, hpop]
          rw [hrun'] at h2
          have hlen : (absQ r).length
              = (absQ { r with read_pos := (r.read_pos + 1) % SLOTS }).length + 1 := by
            rw [habs]; simp
          simp only [List.length_cons] at h2
          omega
        have hcrest : ∀ d ∈ pushedVals rest, d.length = CHUNK_BYTES := fun d hd =>
          hc d (by rw [pushedVals_pop]; exact hd)
        obtain ⟨ihe, ihw⟩ := ih _ hwf' hcrest hb'
        rw [hrun, pushedVals_pop]
        refine ⟨?_, ihw⟩
        rw [List.cons_append, ihe, habs]
        rfl

/-- Consecutive pushes with no intervening pops. -/
def pushSeq (r : AudioRing) (cs : List (List Nat)) : AudioRing :=
  cs.foldl AudioRing.push r

set_option maxRecDepth 40000 in
/-- **C7, counterexample.** 32 consecutive pushes onto the empty ring do
*not* all store their chunks: the full condition `(write+1) % 32 == read`
fires one slot early, so the 32nd push is a no-op (the state is unchanged
and the 32nd chunk `[31]` is stored nowhere), and only 31 chunks are ever
buffered. -/
theorem C7_capacity_counterexample :
    pushSeq emptyRing ((List.range 32).map fun k => [k])
      = pushSeq emptyRing (((List.range 32).map fun k => [k]).take 31)
    ∧ [31] ∉ (pushSeq emptyRing ((List.range 32).map fun k => [k])).slots
    ∧ ringCount (pushSeq emptyRing ((List.range 32).map fun k => [k])) = 31 := by
  decide

/-- **C7, amended.** The ring has 32 slots but buffers at most 31 chunks
(`ringCount` is always ≤ 31): a push onto a well-formed ring buffering fewer
than 31 chunks stores its chunk (the buffered count grows by one and the
abstract queue gains the stored chunk at the back), and a push is discarded
as a no-op (drop newest) exactly when the ring already buffers 31 chunks;
equivalently, starting from an empty ring, 31 — not 32 — consecutive pushes
all store their chunks. -/
theorem C7_ring_stores_below_31 (r : AudioRing) (c : List Nat) (hwf : r.wf) :
    ringCount r ≤ 31
    ∧ (ringCount r = 31 → r.push c = r)
    ∧ (ringCount r < 31 →
        ringCount (r.push c) = ringCount r + 1
        ∧ absQ (r.push c)
            = absQ r ++ [storeChunk (r.slots.getD (r.write_pos % SLOTS) []) c]) := by
  have hS : SLOTS = 32 := rfl
  refine ⟨?_, ?_, ?_⟩
  · simp only [ringCount, hS]
    omega
  · intro h31
    have hfull : (r.write_pos + 1) % SLOTS = r.read_pos := by
      obtain ⟨hw, hr, -, -⟩ := hwf
      rw [hS] at hw hr
      simp only [ringCount, hS] at h31
      rw [hS]
      omega
    unfold AudioRing.push
    rw [if_pos hfull]
  · intro hlt
    obtain ⟨-, -, h1, h2⟩ := push_spec r c hwf hlt
    exact ⟨h1, h2⟩

set_option maxRecDepth 40000 in
/-- **C7, amended, witness.** A full ring (31 buffered chunks) drops the next
push; an empty ring stores it. -/
theorem C7_ring_stores_below_31_witness :
    AudioRing.push (pushSeq emptyRing ((List.range 31).map fun k => [k])) [99]
        = pushSeq emptyRing ((List.range 31).map fun k => [k])
    ∧ ringCount (AudioRing.push emptyRing [5]) = 1 := by
  have h1 := (C7_ring_stores_below_31
    (pushSeq emptyRing ((List.range 31).map fun k => [k])) [99] (by decide)).2.1
    (by decide)
  have h2 := ((C7_ring_stores_below_31 emptyRing [5] (by decide)).2.2 (by decide)).1
  exact ⟨h1, by rw [h2]; decide⟩

/-- **C8.** FIFO / prefix correctness of the ring under any sequential
interleaving of pushes and pops started from position-zero state with
well-formed slots, where every pushed chunk is a full `CHUNK_BYTES` chunk
(as the capture path always pushes) and, at every prefix of the
interleaving, the chunks pushed so far exceed the chunks consumed so far by
at most capacity − 1 = 31 (so no push is ever dropped): the consumer's
observed sequence of chunks is a prefix of the producer's pushed sequence —
in particular each successful pop returns the oldest not-yet-popped chunk. -/
theorem C8_ring_fifo_prefix (ops : List RingOp) (slots0 : List (List Nat))
    (hs : slots0.length = SLOTS)
    (hl : ∀ s ∈ slots0, s.length ≤ CHUNK_BYTES)
    (hc : ∀ c ∈ pushedVals ops, c.length = CHUNK_BYTES)
    (hb : ∀ n ≤ ops.length,
        (pushedVals (ops.take n)).length
          ≤ 31 + (runRing (mkRing slots0) (ops.take n)).2.length) :
    (runRing (mkRing slots0) ops).2 <+: pushedVals ops := by
  have hwf : (mkRing slots0).wf := by
    refine ⟨?_, ?_, hs, hl⟩ <;> simp [mkRing, SLOTS]
  have habs : absQ (mkRing slots0) = [] := by
    simp [absQ, ringCount, mkRing, Nat.mod_self]
  have hspec := runRing_spec ops (mkRing slots0) hwf hc
    (by intro n hn; rw [habs]; simpa using hb n hn)
  refine ⟨absQ (runRing (mkRing slots0) ops).1, ?_⟩
  rw [hspec.1, habs]
  rfl

/-- **C8, witness.** One full-size chunk pushed then one pop: the theorem's
hypotheses hold (one push, never more than 31 ahead of the pops), so the
consumer's observed chunks form a prefix of the pushed sequence. -/
theorem C8_ring_fifo_prefix_witness :
    (runRing (mkRing (List.replicate 32 []))
        [RingOp.push (List.replicate 1280 7), RingOp.pop]).2
      <+: pushedVals [RingOp.push (List.replicate 1280 7), RingOp.pop] := by
  refine C8_ring_fifo_prefix _ _ (by simp only [List.length_replicate, SLOTS]) ?_ ?_ ?_
  · intro s hs
    rw [List.eq_of_mem_replicate hs]
    simp [CHUNK_BYTES]
  · intro c hc
    simp only [pushedVals, List.filterMap_cons, List.filterMap_nil] at hc
    simp only [List.mem_singleton] at hc
    subst hc
    simp only [List.length_replicate, CHUNK_BYTES]
  · intro n hn
    have h1 : (pushedVals
        (List.take n [RingOp.push (List.replicate 1280 7), RingOp.pop])).length ≤ 2 := by
      refine le_trans (List.length_filterMap_le _ _) ?_
      rw [List.length_take]
      exact min_le_right _ _
    omega

/-! ## Session worker (asr.zig `Session`)

The worker loop is a function of the sequence of per-iteration observations
(the `running` flag, the ring pop outcome, the audio-sink registration, the
send result and the WebSocket read outcome) plus the external `std.json`
view of response payloads.  Events are the `emitEvent` callback invocations
in order; audio frames are the (payload, last) pairs handed to
`buildAudioOnlyRequest`/`sendBinary`. -/

/-- One `emitEvent(event_type, text)` callback invocation; the constructors
correspond to event types 0 (partial), 1 (final), 2 (status), 3 (error). -/
inductive CallbackEvent where
  | prelimEv (t : List Char)
  | finalEv (t : List Char)
  | statusEv (t : List Char)
  | errorEv (t : List Char)
deriving DecidableEq, Repr

/-- Server error-message bytes as the text handed to the callback. -/
def bytesToChars (bs : List Nat) : List Char := bs.map Char.ofNat

/-- The WebSocket opcodes the session loop distinguishes. -/
inductive WsOp where
  | binary
  | close
  | ping
  | other
deriving DecidableEq, Repr

/-- Outcome of one `ws.readFrame()` call: timeout (`error.WouldBlock`),
`error.ConnectionClosed`, another read error, or a frame. -/
inductive ReadOutcome where
  | wouldBlock
  | connClosed
  | readErr
  | frame (op : WsOp) (payload : List Nat)
deriving DecidableEq, Repr

/-- What the worker observes during one loop iteration. -/
structure IterObs where
  running : Bool
  popResult : Option (List Nat)
  sinkActive : Bool
  sendChunkOk : Bool
  read : ReadOutcome
deriving DecidableEq, Repr

/-- The audio-sending phase of one iteration (runSession, `if (!audio_done)`
block): a popped chunk is sent with `last = false`, and a failed send marks
audio done; with the ring empty and the sink cleared, a single empty
`last = true` frame is sent (send result ignored) and audio is marked done;
with the ring empty but the sink still active, nothing happens.  Returns the
new `audio_done` flag and the frames sent this iteration. -/
def audioPhase (audioDone : Bool) (popResult : Option (List Nat))
    (sinkActive : Bool) (sendChunkOk : Bool) : Bool × List (List Nat × Bool) :=
  if audioDone then (true, [])
  else
    match popResult with
    | some chunk => (if sendChunkOk then false else true, [(chunk, false)])
    | none =>
      if ¬ sinkActive then (true, [([], true)])
      else (false, [])

/-- Interpreter state threaded through the loop
(`last_committed_end_time`, `last_full_text`). -/
structure InterpState where
  lcet : Int
  lastFull : List Char
deriving DecidableEq, Repr

/-- The response-reading phase of one iteration: would-block continues,
closed/error reads and `close` opcodes break, `ping` answers with a pong
(no event), and a `binary` frame is decoded — a vendor error frame emits the
error event and breaks, a response frame runs the interpreter and emits its
partial then its finals, breaking afterwards when the vendor flags are
`0b0011`.  Returns (new state, events, break?). -/
def readPhase (jsonView : List Nat → AsrResponseJson) (mode : List Char)
    (st : InterpState) (r : ReadOutcome) :
    InterpState × List CallbackEvent × Bool :=
  match r with
  | .wouldBlock => (st, [], false)
  | .connClosed => (st, [], true)
  | .readErr => (st, [], true)
  | .frame op payload =>
    match op with
    | .binary =>
      if (parseServerMessage payload).kind = MsgKind.error then
        (st, [CallbackEvent.errorEv
            (match (parseServerMessage payload).error_msg with
             | some m => bytesToChars m
             | none => "server error".toList)], true)
      else if (parseServerMessage payload).kind ≠ MsgKind.response then
        (st, [], false)
      else
        match (parseServerMessage payload).json_text with
        | none => (st, [], false)
        | some jt =>
          let r4 := parseAsrResponse (jsonView jt) mode st.lcet st.lastFull
          ({ lcet := r4.2.2.1, lastFull := r4.2.2.2 },
           (match r4.1 with
            | some p => [CallbackEvent.prelimEv p]
            | none => []) ++ r4.2.1.map CallbackEvent.finalEv,
           (parseServerMessage payload).flags = 3)
    | .close => (st, [], true)
    | .ping => (st, [], false)
    | .other => (st, [], false)

/-- Loop state: interpreter state plus the `audio_done` flag. -/
structure LoopState where
  interp : InterpState
  audioDone : Bool
deriving DecidableEq, Repr

/-- The main `while (running)` loop of runSession over a finite observation
sequence: stops when `running` is observed false, when an iteration breaks,
or when the observations are exhausted.  Returns the final state, the events
emitted and the audio frames sent, each in order. -/
def runLoop (jsonView : List Nat → AsrResponseJson) (mode : List Char) :
    LoopState → List IterObs → LoopState × List CallbackEvent × List (List Nat × Bool)
  | st, [] => (st, [], [])
  | st, ob :: rest =>
    if ob.running = false then (st, [], [])
    else
      let a := audioPhase st.audioDone ob.popResult ob.sinkActive ob.sendChunkOk
      let rp := readPhase jsonView mode st.interp ob.read
      if rp.2.2 then ({ interp := rp.1, audioDone := a.1 }, rp.2.1, a.2)
      else
        let q := runLoop jsonView mode { interp := rp.1, audioDone := a.1 } rest
        (q.1, rp.2.1 ++ q.2.1, a.2 ++ q.2.2)

/-- The loop state at session start (asr.zig: `last_committed_end_time = -1`,
`last_full_text = ""`, `audio_done = false`). -/
def initLoopState : LoopState :=
  { interp := { lcet := -1, lastFull := [] }, audioDone := false }

/-- asr.zig `Session.sessionLoop`: run the session; when `runSession` fails
(under infallible allocation this is exactly a failed initial
full-client-request send) the `"session error"` error event is emitted; in
every case the `"idle"` status event is emitted last. -/
def sessionLoop (jsonView : List Nat → AsrResponseJson) (mode : List Char)
    (initialSendOk : Bool) (obs : List IterObs) : List CallbackEvent :=
  if initialSendOk then
    (runLoop jsonView mode initLoopState obs).2.1
      ++ [CallbackEvent.statusEv "idle".toList]
  else
    [CallbackEvent.errorEv "session error".toList,
     CallbackEvent.statusEv "idle".toList]

/-- Status-event discriminator. -/
def isStatusEv : CallbackEvent → Bool
  | .statusEv _ => true
  | _ => false

lemma readPhase_no_status (jsonView : List Nat → AsrResponseJson)
    (mode : List Char) (st : InterpState) (r : ReadOutcome) :
    ∀ e ∈ (readPhase jsonView mode st r).2.1, isStatusEv e = false := by
  intro e he
  cases r with
  | wouldBlock => simp [readPhase] at he
  | connClosed => simp [readPhase] at he
  | readErr => simp [readPhase] at he
  | frame op payload =>
    cases op with
    | binary =>
      simp only [readPhase] at he
      split_ifs at he with h1 h2
      · simp only [List.mem_singleton] at he
        subst he; rfl
      · simp at he
      · rcases hjt : (parseServerMessage payload).json_text with _ | jt
        · rw [hjt] at he; simp at he
        · rw [hjt] at he
          simp only [List.mem_append] at he
          rcases he with he | he
          · rcases hp : (parseAsrResponse (jsonView jt) mode st.lcet st.lastFull).1
              with _ | p
            · rw [hp] at he; simp at he
            · rw [hp] at he
              simp only [List.mem_singleton] at he
              subst he; rfl
          · simp only [List.mem_map] at he
            obtain ⟨t, -, rfl⟩ := he
            rfl
    | close => simp [readPhase] at he
    | ping => simp [readPhase] at he
    | other => simp [readPhase] at he

lemma runLoop_no_status (jsonView : List Nat → AsrResponseJson) (mode : List Char)
    (obs : List IterObs) (st : LoopState) :
    ∀ e ∈ (runLoop jsonView mode st obs).2.1, isStatusEv e = false := by
  induction obs generalizing st with
  | nil => intro e he; simp [runLoop] at he
  | cons ob rest ih =>
    intro e he
    simp only [runLoop] at he
    split_ifs at he with h1 h2
    · simp at he
    · exact readPhase_no_status jsonView mode st.interp ob.read e he
    · simp only [List.mem_append] at he
      rcases he with he | he
      · exact readPhase_no_status jsonView mode st.interp ob.read e he
      · exact ih _ e he

/-- **C3.** For every session worker run — any observation sequence, any
`std.json` behaviour, any mode, and whether or not the initial send
succeeded — the emitted event sequence contains exactly one status event;
it carries the text `"idle"` and is the last event of the session, hence it
comes at/after session termination and after every partial/final event.
(The worker loop itself never emits a status event; `sessionLoop` appends
the single `"idle"` on both the normal and the error exit.) -/
theorem C3_exactly_one_idle_last (jsonView : List Nat → AsrResponseJson)
    (mode : List Char) (initialSendOk : Bool) (obs : List IterObs) :
    (sessionLoop jsonView mode initialSendOk obs).countP isStatusEv = 1
      ∧ (sessionLoop jsonView mode initialSendOk obs).getLast?
          = some (CallbackEvent.statusEv "idle".toList) := by
  unfold sessionLoop
  split_ifs with h
  · constructor
    · rw [List.countP_append]
      have h0 : (runLoop jsonView mode initLoopState obs).2.1.countP isStatusEv = 0 :=
        List.countP_eq_zero.mpr
          (by intro e he
              simpa using runLoop_no_status jsonView mode obs initLoopState e he)
      rw [h0]
      rfl
    · exact List.getLast?_concat _
  · exact ⟨rfl, rfl⟩

lemma audioPhase_done (popResult : Option (List Nat)) (sinkActive sendChunkOk : Bool) :
    audioPhase true popResult sinkActive sendChunkOk = (true, []) := rfl

/-- Once `audio_done` holds at an iteration start, the rest of the run sends
no audio-only frame at all. -/
lemma runLoop_no_audio_after_done (jsonView : List Nat → AsrResponseJson)
    (mode : List Char) (obs : List IterObs) (st : LoopState)
    (hd : st.audioDone = true) :
    (runLoop jsonView mode st obs).2.2 = [] := by
  induction obs generalizing st with
  | nil => simp [runLoop]
  | cons ob rest ih =>
    simp only [runLoop, hd, audioPhase_done]
    split_ifs with h1 h2
    · rfl
    · rfl
    · rw [List.nil_append]
      exact ih { interp := (readPhase jsonView mode st.interp ob.read).1,
                 audioDone := true } rfl

/-- The `audio_done` flag never resets within a run: the final flag is
`true` whenever the starting flag is. -/
lemma runLoop_audioDone_mono (jsonView : List Nat → AsrResponseJson)
    (mode : List Char) (obs : List IterObs) (st : LoopState)
    (hd : st.audioDone = true) :
    (runLoop jsonView mode st obs).1.audioDone = true := by
  induction obs generalizing st with
  | nil => simpa [runLoop] using hd
  | cons ob rest ih =>
    simp only [runLoop, hd, audioPhase_done]
    split_ifs with h1 h2
    · exact hd
    · rfl
    · exact ih _ rfl

/-- Audio frames carrying `last = true` occur at most once per run: the only
step that sends one also sets `audio_done`, after which nothing is sent. -/
lemma runLoop_terminal_once (jsonView : List Nat → AsrResponseJson)
    (mode : List Char) (obs : List IterObs) (st : LoopState) :
    (runLoop jsonView mode st obs).2.2.countP (fun f => f.2) ≤ 1 := by
  induction obs generalizing st with
  | nil => simp [runLoop]
  | cons ob rest ih =>
    by_cases hd : st.audioDone = true
    · rw [runLoop_no_audio_after_done jsonView mode _ _ hd]
      simp
    · rw [Bool.not_eq_true] at hd
      simp only [runLoop, hd]
      split_ifs with h1 h2
    -- three goals: running false, break, continue
      · simp
      · rcases hpop : ob.popResult with _ | chunk
        · by_cases hsink : ob.sinkActive
          · simp [audioPhase, hpop, hsink]
          · simp [audioPhase, hpop, hsink]
        · simp [audioPhase, hpop]
      · rw [List.countP_append]
        rcases hpop : ob.popResult with _ | chunk
        · by_cases hsink : ob.sinkActive
          · simp only [audioPhase, hpop, hsink]
            simpa using ih _
          · simp only [audioPhase, hpop, hsink]
            rw [runLoop_no_audio_after_done jsonView mode rest _ rfl]
            simp
        · simp only [audioPhase, hpop]
          simpa using ih _

/-- Every `last = true` audio frame of a run has an empty payload. -/
lemma runLoop_terminal_payload_empty (jsonView : List Nat → AsrResponseJson)
    (mode : List Char) (obs : List IterObs) (st : LoopState) :
    ∀ f ∈ (runLoop jsonView mode st obs).2.2, f.2 = true → f.1 = [] := by
  induction obs generalizing st with
  | nil => simp [runLoop]
  | cons ob rest ih =>
    intro f hf hlast
    by_cases hd : st.audioDone = true
    · rw [runLoop_no_audio_after_done jsonView mode _ _ hd] at hf
      simp at hf
    · rw [Bool.not_eq_true] at hd
      simp only [runLoop, hd] at hf
      split_ifs at hf with h1 h2
      · simp at hf
      · rcases hpop : ob.popResult with _ | chunk
        · by_cases hsink : ob.sinkActive
          · rw [hpop] at hf; simp [audioPhase, hsink] at hf
          · rw [hpop] at hf
            simp [audioPhase, hsink] at hf
            rw [hf]
        · rw [hpop] at hf
          simp [audioPhase] at hf
          rw [hf] at hlast
          simp at hlast
      · rw [List.mem_append] at hf
        rcases hf with hf | hf
        · rcases hpop : ob.popResult with _ | chunk
          · by_cases hsink : ob.sinkActive
            · rw [hpop] at hf; simp [audioPhase, hsink] at hf
            · rw [hpop] at hf
              simp [audioPhase, hsink] at hf
              rw [hf]
          · rw [hpop] at hf
            simp [audioPhase] at hf
            rw [hf] at hlast
            simp at hlast
        · exact ih _ f hf hlast

/-- **C4.** Audio-frame discipline of one session worker run.
(1) A `last = true` frame is produced by the audio phase only when audio is
not yet done, the ring pop found nothing and the sink has been cleared —
and its payload is empty.
(2) That step marks audio done, and so does a failed mid-stream chunk send.
(3) Whole-run consequences: once `audio_done` holds nothing further is sent,
at most one `last = true` frame is ever sent, and every such terminal frame
has an empty payload. -/
theorem C4_terminal_audio_frame (jsonView : List Nat → AsrResponseJson)
    (mode : List Char) (obs : List IterObs) (st : LoopState) :
    (∀ (done : Bool) (popR : Option (List Nat)) (sink sendOk : Bool) f,
        f ∈ (audioPhase done popR sink sendOk).2 → f.2 = true →
          done = false ∧ popR = none ∧ sink = false ∧ f.1 = [])
    ∧ (∀ sendOk, (audioPhase false none false sendOk).1 = true)
    ∧ (∀ c sink, (audioPhase false (some c) sink false).1 = true)
    ∧ (st.audioDone = true → (runLoop jsonView mode st obs).2.2 = [])
    ∧ (runLoop jsonView mode st obs).2.2.countP (fun f => f.2) ≤ 1
    ∧ (∀ f ∈ (runLoop jsonView mode st obs).2.2, f.2 = true → f.1 = []) := by
  refine ⟨?_, fun sendOk => rfl, fun c sink => rfl,
    fun hd => runLoop_no_audio_after_done jsonView mode obs st hd,
    runLoop_terminal_once jsonView mode obs st,
    runLoop_terminal_payload_empty jsonView mode obs st⟩
  intro done popR sink sendOk f hf hlast
  cases done with
  | true => simp [audioPhase] at hf
  | false =>
    rcases popR with _ | chunk
    · by_cases hsink : sink
      · simp [audioPhase, hsink] at hf
      · simp [audioPhase, hsink] at hf
        rw [hf]
        exact ⟨rfl, rfl, by simpa using hsink, rfl⟩
    · simp [audioPhase] at hf
      rw [hf] at hlast
      simp at hlast

/-- **C4, witness.** A run starting with audio already done sends nothing;
the terminal step sets the done flag; a one-iteration run sends at most one
terminal frame. -/
theorem C4_terminal_audio_frame_witness :
    (runLoop (fun _ => AsrResponseJson.invalid) ['m']
        { interp := { lcet := -1, lastFull := [] }, audioDone := true }
        [ { running := true, popResult := none, sinkActive := false,
            sendChunkOk := true, read := ReadOutcome.wouldBlock } ]).2.2 = []
    ∧ (audioPhase false none false true).1 = true
    ∧ (runLoop (fun _ => AsrResponseJson.invalid) ['m']
        { interp := { lcet := -1, lastFull := [] }, audioDone := false }
        [ { running := true, popResult := none, sinkActive := false,
            sendChunkOk := true, read := ReadOutcome.wouldBlock } ]).2.2.countP
        (fun f => f.2) ≤ 1 := by
  have h1 := C4_terminal_audio_frame (fun _ => AsrResponseJson.invalid) ['m']
    [ { running := true, popResult := none, sinkActive := false,
        sendChunkOk := true, read := ReadOutcome.wouldBlock } ]
    { interp := { lcet := -1, lastFull := [] }, audioDone := true }
  have h2 := C4_terminal_audio_frame (fun _ => AsrResponseJson.invalid) ['m']
    [ { running := true, popResult := none, sinkActive := false,
        sendChunkOk := true, read := ReadOutcome.wouldBlock } ]
    { interp := { lcet := -1, lastFull := [] }, audioDone := false }
  exact ⟨h1.2.2.2.1 rfl, h1.2.1 true, h2.2.2.2.2.1⟩

/-! ## Context (context.zig `startSession`) and api.zig `anytalk_start` -/

/-- The context state that `startSession` manipulates under the session
mutex: whether a draining session exists and whether an active session
exists (connections are abstract tokens). -/
structure CtxState where
  hasDraining : Bool
  activeSession : Option Unit
deriving DecidableEq, Repr

/-- context.zig `AnytalkContext.startSession` as a function of the pool's
`take()` result and, when the pool is empty, the on-demand `connectToAsr`
outcome.  The early steps — aborting any draining session, retrying audio
capture, aborting any existing active session — emit no events.  Then: a
pooled connection starts a session and emits the `"recording"` status;
otherwise the `"connecting"` status is emitted and an on-demand dial is
attempted — on failure the `"connection failed"` error is emitted and
failure is returned with no session created, on success the session starts
and `"recording"` is emitted.  Returns (new state, events in order,
success).  (Session allocation and thread spawn are modelled infallible.) -/
def startSession (st : CtxState) (poolSpare : Option Unit)
    (dialResult : Option Unit) : CtxState × List CallbackEvent × Bool :=
  match poolSpare with
  | some ws =>
    ({ st with hasDraining := false, activeSession := some ws },
     [CallbackEvent.statusEv "recording".toList], true)
  | none =>
    match dialResult with
    | some ws =>
      ({ st with hasDraining := false, activeSession := some ws },
       [CallbackEvent.statusEv "connecting".toList,
        CallbackEvent.statusEv "recording".toList], true)
    | none =>
      ({ st with hasDraining := false, activeSession := none },
       [CallbackEvent.statusEv "connecting".toList,
        CallbackEvent.errorEv "connection failed".toList], false)

/-- api.zig `anytalk_start`: −1 on a null context, otherwise 0 when
`startSession` succeeds and −1 when it returns failure. -/
def anytalk_start (ctxPresent : Bool) (st : CtxState)
    (poolSpare dialResult : Option Unit) : Int :=
  if ¬ ctxPresent then -1
  else if (startSession st poolSpare dialResult).2.2 then 0 else -1

/-- **C9.** Whenever `startSession` finds no pooled connection it first
emits the `"connecting"` status (and then dials on demand); if that dial
fails it emits the `"connection failed"` error, returns failure — so
`anytalk_start` returns −1 — and no session is created or started (the
active-session slot is empty in the resulting state). -/
theorem C9_pool_miss_dial_failure (st : CtxState) (dialResult : Option Unit) :
    ((startSession st none dialResult).2.1.head?
        = some (CallbackEvent.statusEv "connecting".toList))
    ∧ (dialResult = none →
        startSession st none none
          = ({ st with hasDraining := false, activeSession := none },
             [CallbackEvent.statusEv "connecting".toList,
              CallbackEvent.errorEv "connection failed".toList], false)
        ∧ anytalk_start true st none none = -1) := by
  constructor
  · cases dialResult <;> rfl
  · intro h
    refine ⟨rfl, ?_⟩
    simp [anytalk_start, startSession]

/-- **C9, witness.** A concrete context with a draining session and an
active session: pool miss plus dial failure yields connecting then the
error, failure, −1, and no session. -/
theorem C9_pool_miss_dial_failure_witness :
    startSession { hasDraining := true, activeSession := some () } none none
      = ({ hasDraining := false, activeSession := none },
         [CallbackEvent.statusEv "connecting".toList,
          CallbackEvent.errorEv "connection failed".toList], false)
    ∧ anytalk_start true { hasDraining := true, activeSession := some () } none none
        = -1 := by
  have h := (C9_pool_miss_dial_failure
    { hasDraining := true, activeSession := some () } none).2 rfl
  exact ⟨h.1, h.2⟩
